import Mathlib

/-!
Verification of the `adp` device-pool allocator against its specification.

The repository persists a claim ledger (`src/lockfile.rs`, a
`BTreeMap<String, Option<Pid>>`), guards it with an exclusive file lock
(`src/filelock.rs`), mirrors the free-slot count in a named counting
semaphore, and runs a reconcile/claim/persist pass per acquisition attempt
(`src/main.rs`, `App::try_acquire_resource`).  Device boot readiness is
polled with a fixed-delay retry loop (`src/runtime.rs`,
`RealRuntime::wait_for_boot`).

The embedding below mirrors those sources:
* the `BTreeMap` is a key-sorted association list (`Ledger`), with
  `insertEntry` playing the role of `BTreeMap::insert`;
* process ids are integers; `sysinfo::Pid` is an `i32` alias (the cast
  `std::process::id() as Pid` requires a primitive), so `parsePid`
  enforces the `i32` range of `str::parse::<Pid>()` while ledger values
  themselves are carried as mathematical integers;
* file contents are `String`s; `rustLines` mirrors `BufRead::lines`
  (split on a newline, drop one trailing carriage return of each
  newline-terminated line, no final empty line after a trailing newline);
* fallible operations return `Option`/`Except` (a Rust panic or `Err`
  becomes `none`/`.error`);
* one allocator pass is a pure function from (runtime oracle, pid, file
  text, semaphore value) to a `PassResult` carrying an event trace, so
  that ordering claims about the lock and the semaphore are statable.
-/

namespace Adp

abbrev Pid := Int
abbrev Serial := String

/-- Strict lexicographic order on character lists, by code point.  On valid
UTF-8 this coincides with the byte-wise `Ord` that Rust's
`BTreeMap<String, _>` uses for its keys. -/
def lexLt : List Char → List Char → Bool
  | _, [] => false
  | [], _ :: _ => true
  | a :: as, b :: bs =>
    if a.toNat < b.toNat then true
    else if b.toNat < a.toNat then false
    else lexLt as bs

/-- The key order of the ledger's `BTreeMap<String, Option<Pid>>`. -/
def serial_lt (a b : Serial) : Bool :=
  lexLt a.data b.data

/-- Embedding of `LockFileEntries` (`src/lockfile.rs`):
a `BTreeMap<String, Option<Pid>>` represented as an association list kept
sorted by key. -/
abbrev Ledger := List (Serial × Option Pid)

/-- `BTreeMap::insert`: replace the entry for key `s` if present, otherwise
insert it at its sorted position. -/
def insertEntry (s : Serial) (p : Option Pid) : Ledger → Ledger
  | [] => [(s, p)]
  | (k, v) :: rest =>
    if serial_lt s k then (s, p) :: (k, v) :: rest
    else if s = k then (s, p) :: rest
    else (k, v) :: insertEntry s p rest

/-- The `BTreeMap` invariant: keys strictly increasing in iteration order. -/
def SortedLedger (l : Ledger) : Prop :=
  l.Pairwise (fun a b => serial_lt a.1 b.1 = true)

instance (l : Ledger) : Decidable (SortedLedger l) := by
  unfold SortedLedger; infer_instance

/-- First-match lookup (`BTreeMap::get` on the sorted list). -/
def lookupEntry (l : Ledger) (s : Serial) : Option (Option Pid) :=
  (l.find? (fun e => e.1 == s)).map (fun e => e.2)

/-- `BTreeMap::contains_key` / `Entry` presence test. -/
def containsKey (l : Ledger) (s : Serial) : Bool :=
  l.any (fun e => e.1 == s)

/-- `LockFileEntries::find_available`: first entry in iteration order whose
holder is `None`. -/
def find_available (l : Ledger) : Option Serial :=
  (l.find? (fun e => e.2.isNone)).map (fun e => e.1)

/-- `LockFileEntries::acquire`: claim the first free slot for `pid`,
returning the claimed serial and the updated ledger. -/
def acquire (pid : Pid) (l : Ledger) : Option Serial × Ledger :=
  match find_available l with
  | none => (none, l)
  | some serial => (some serial, insertEntry serial (some pid) l)

/-- `LockFileEntries::release`: unconditionally map `serial` to free. -/
def release (serial : Serial) (l : Ledger) : Ledger :=
  insertEntry serial none l

/-- `LockFileEntries::release_all`. -/
def release_all (serials : List Serial) (l : Ledger) : Ledger :=
  serials.foldl (fun acc s => release s acc) l

/-- `LockFileEntries::count_available`. -/
def count_available (l : Ledger) : Nat :=
  (l.filter (fun e => e.2.isNone)).length

/-- `LockFileEntries::unavialble` (name kept from the source): the held
slots with their holders. -/
def unavialble (l : Ledger) : List (Serial × Pid) :=
  l.filterMap (fun e =>
    match e.2 with
    | none => none
    | some pid => some (e.1, pid))

/-- `LockFileEntries::update`: retain only entries whose serial is in
`serials`, then insert a free entry for every serial not already present
(`BTreeMap::retain` followed by `entry(..).or_insert_with(|| None)`). -/
def update (serials : List Serial) (l : Ledger) : Ledger :=
  serials.foldl
    (fun acc s => if containsKey acc s then acc else insertEntry s none acc)
    (l.filter (fun e => serials.contains e.1))

/-! ### Parsing and serialization (`LockFileEntries::read` / `write`) -/

/-- One nonempty run of ASCII digits, read as a natural number (the
digit-accumulation loop of `from_str_radix`; its checked arithmetic is
accounted for by the range test in `parsePid`). -/
def parseDigits : List Char → Option Nat
  | [] => none
  | cs =>
    cs.foldl
      (fun acc c =>
        acc.bind (fun n => if c.isDigit then some (n * 10 + (c.toNat - 48)) else none))
      (some 0)

/-- `str::parse::<Pid>()` where `Pid` is the `i32` alias `sysinfo::Pid`:
optional `+`/`-` sign followed by at least one ASCII digit, failing when
the value overflows `i32` (the checked accumulation of `from_str_radix`
overflows exactly when the represented value leaves
`[-2147483648, 2147483647]`; the negative bound is one larger because the
negative path accumulates downward). -/
def parsePid (s : String) : Option Pid :=
  match s.data with
  | [] => none
  | c :: rest =>
    if c = '-' then
      (parseDigits rest).bind
        (fun n => if n ≤ 2147483648 then some (-(n : Int)) else none)
    else if c = '+' then
      (parseDigits rest).bind
        (fun n => if n ≤ 2147483647 then some ((n : Int)) else none)
    else
      (parseDigits s.data).bind
        (fun n => if n ≤ 2147483647 then some ((n : Int)) else none)

/-- Rust's `str::split` on a single-character pattern: the segments between
occurrences of `sep`; always at least one (possibly empty) segment. -/
def splitOnChar (sep : Char) : List Char → List (List Char)
  | [] => [[]]
  | c :: rest =>
    if c = sep then [] :: splitOnChar sep rest
    else
      match splitOnChar sep rest with
      | [] => [[c]]
      | seg :: segs => (c :: seg) :: segs

/-- One line of the lock file: `line.split(":")`, first segment is the
serial, second (if a `:` is present) must parse as a pid; extra segments
are ignored by the source. `none` models the `expect("invalid pid")`
panic. -/
def parseLine (line : String) : Option (Serial × Option Pid) :=
  match splitOnChar ':' line.data with
  | [] => none
  | [s] => some (⟨s⟩, none)
  | s :: p :: _ => (parsePid ⟨p⟩).map (fun pid => ((⟨s⟩ : String), some pid))

/-- `BufRead::lines` on a reversed accumulator: strip one trailing `\r`
of a line that was terminated by `\n`. -/
def dropCR : List Char → List Char
  | '\r' :: rest => rest
  | cs => cs

/-- `BufRead::lines`: split on `\n`; a line terminated by `\n` loses the
terminator and one trailing `\r`; a final unterminated line is returned
as-is; no empty final line is produced after a trailing `\n`.
The accumulator holds the current line reversed. -/
def rustLinesAux : List Char → List Char → List String
  | [], acc => if acc.isEmpty then [] else [⟨acc.reverse⟩]
  | c :: rest, acc =>
    if c = '\n' then ⟨(dropCR acc).reverse⟩ :: rustLinesAux rest []
    else rustLinesAux rest (c :: acc)

def rustLines (s : String) : List String :=
  rustLinesAux s.data []

/-- Collect parsed lines into the map, later duplicate serials overwriting
earlier ones, failing on the first unparsable line. -/
def readLines : List String → Ledger → Option Ledger
  | [], acc => some acc
  | line :: rest, acc =>
    match parseLine line with
    | none => none
    | some e => readLines rest (insertEntry e.1 e.2 acc)

/-- `LockFileEntries::read`. -/
def read (text : String) : Option Ledger :=
  readLines (rustLines text) []

/-- One serialized record, without its newline: `serial` when free,
`serial:pid` when held. -/
def writeEntry (e : Serial × Option Pid) : String :=
  match e.2 with
  | none => e.1
  | some pid => e.1 ++ ":" ++ toString pid

/-- `LockFileEntries::write`: every entry in iteration order, one
newline-terminated record per entry. -/
def write (l : Ledger) : String :=
  String.join (l.map (fun e => writeEntry e ++ "\n"))

/-! ### One pass of the acquisition protocol (`App::try_acquire_resource`)

The pass is modelled as a pure function of the external inputs it reads
(device list and process-liveness oracle, lock-file text, observed
semaphore value) that also records the ordered trace of side effects it
performs, so that claims about the ordering of the file guard and the
semaphore operations are statable.  A fatal error (the `expect` panic on
a corrupt pid field) is `none`. -/

/-- The observable side effects of one pass, in program order. -/
inductive Event where
  /-- `open_lock_file`: the exclusive file lock is taken. -/
  | lockAcquire : Event
  /-- `self.is_running(pid)` is asked about one recorded holder. -/
  | livenessCheck (pid : Pid) : Event
  /-- one synchronous `self.sem.acquire()` of the reconciliation loop. -/
  | semDecrement : Event
  /-- one synchronous `self.sem.release()` of the reconciliation loop. -/
  | semIncrement : Event
  /-- the ledger is persisted: truncate and rewrite with `text`. -/
  | persist (text : String) : Event
  /-- `drop(lock_file)`: the exclusive file lock is released. -/
  | lockRelease : Event
  /-- `self.sem.access()`: the blocking acquisition of one permit. -/
  | semBlockingAcquire : Event
deriving DecidableEq, Repr

/-- The external oracle (`Runtime`): connected device serials and process
liveness, both assumed to answer without error during the pass. -/
structure RuntimeModel where
  devices : List Serial
  is_running : Pid → Bool

/-- Everything one successful pass produces. -/
structure PassResult where
  /-- the serial claimed by this pass, if any. -/
  claimed : Option Serial
  /-- the in-memory ledger at the end of the pass. -/
  entries : Ledger
  /-- the lock-file text at the end of the pass (rewritten only when a
  serial was claimed). -/
  fileText : String
  /-- the semaphore value after the synchronous reconciliation loop,
  before the blocking `access()`. -/
  semAfterReconcile : Nat
  /-- the semaphore value after the blocking `access()` returns. -/
  semFinal : Nat
  /-- the side effects of the pass, in program order. -/
  events : List Event
deriving DecidableEq, Repr

/-- The semaphore reconciliation (`main.rs` lines 166-182): against an
observed `value`, run `value - actual` synchronous decrements when the
value is too high, `actual - value` synchronous increments when it is too
low, and nothing otherwise.  Returns the resulting value and the emitted
events. -/
def adjustSem (value actual : Nat) : Nat × List Event :=
  if actual < value then
    ((List.range (value - actual)).foldl (fun v _ => v - 1) value,
      List.replicate (value - actual) Event.semDecrement)
  else if value < actual then
    ((List.range (actual - value)).foldl (fun v _ => v + 1) value,
      List.replicate (actual - value) Event.semIncrement)
  else (value, [])

/-- The serials dropped by stale-holder pruning: every held slot whose
recorded holder the oracle reports as not running. -/
def prune_dropped (rt : RuntimeModel) (l : Ledger) : List Serial :=
  ((unavialble l).filter (fun e => !(rt.is_running e.2))).map (fun e => e.1)

/-- The tail of the pass shared by both claim outcomes (`main.rs` lines
164-199): reconcile the semaphore to `actual`, persist exactly when a
serial was claimed, drop the file guard, then block on the semaphore for
one permit. -/
def finishPass (serial : Option Serial) (entriesF : Ledger) (actual : Nat)
    (liveEvents : List Event) (fileText : String) (semValue : Nat) : PassResult :=
  let adj := adjustSem semValue actual
  let newText := if serial.isSome then write entriesF else fileText
  let persistEvents := if serial.isSome then [Event.persist (write entriesF)] else []
  { claimed := serial
    entries := entriesF
    fileText := newText
    semAfterReconcile := adj.1
    semFinal := adj.1 - 1
    events := Event.lockAcquire ::
      (liveEvents ++ adj.2 ++ persistEvents ++ [Event.lockRelease, Event.semBlockingAcquire]) }

/-- The claim part of the pass (`main.rs` lines 146-162): record the free
count, try to claim; on failure ask the oracle about every recorded
holder, release the stale ones, recompute the free count and retry the
claim once.  Returns (claimed serial, final ledger, `actual_value`,
liveness events). -/
def passCore (rt : RuntimeModel) (pid : Pid) (entries1 : Ledger) :
    Option Serial × Ledger × Nat × List Event :=
  match acquire pid entries1 with
  | (some s, entries2) => (some s, entries2, count_available entries1, [])
  | (none, entries2) =>
    let held := unavialble entries2
    let entries3 := release_all (prune_dropped rt entries2) entries2
    match acquire pid entries3 with
    | (serial1, entries4) =>
      (serial1, entries4, count_available entries3,
        held.map (fun e => Event.livenessCheck e.2))

/-- `App::try_acquire_resource`: one full pass.  Reads and reconciles the
ledger against the connected devices, runs the claim attempt(s),
reconciles the semaphore, persists when a serial was claimed, releases
the file guard and blocks for one permit. -/
def try_acquire_resource (rt : RuntimeModel) (pid : Pid)
    (fileText : String) (semValue : Nat) : Option PassResult :=
  match read fileText with
  | none => none
  | some entries0 =>
    match passCore rt pid (update rt.devices entries0) with
    | (serial, entriesF, actual, liveEvents) =>
      some (finishPass serial entriesF actual liveEvents fileText semValue)

/-! ### Boot-readiness polling (`RealRuntime::wait_for_boot`)

The oracle is a function from (serial, property name, attempt index) to
the observed property value; the attempt index models the value changing
over time while the fixed-delay retry loop re-queries it.  Attempt
indices start at 1, matching the retry crate's `current_try`. -/

/-- The two boot predicates, in the order the source checks them. -/
def bootProps : List (String × String) :=
  [("init.svc.bootanim", "stopped"), ("sys.boot_completed", "1")]

/-- The retry crate's `retry_with_index` with a delay iterator of
`delaysLeft` fixed delays: run the operation; on failure consume one
delay and retry, and fail with the last error once no delay is left.
One initial attempt plus at most `delaysLeft` retries. -/
def retryFixed (delaysLeft : Nat) (currentTry : Nat)
    (op : Nat → Except String Unit) : Except String Unit :=
  match op currentTry with
  | .ok v => .ok v
  | .error e =>
    match delaysLeft with
    | 0 => .error e
    | n + 1 => retryFixed n (currentTry + 1) op

/-- One polling attempt: read the property and compare it to the expected
value (`runtime.rs` lines 60-72). -/
def getpropAttempt (oracle : Serial → String → Nat → String)
    (serial : Serial) (prop expected : String) (i : Nat) : Except String Unit :=
  let value := oracle serial prop i
  if value ≠ expected then
    .error ("expected prop " ++ prop ++ " = " ++ expected ++ " but was " ++ value)
  else .ok ()

/-- The `for` loop of `wait_for_boot`: each predicate in order, 60 fixed
delays (61 attempts); on exhaustion the error is replaced by the
`with_context` message naming the predicate. -/
def waitProps (oracle : Serial → String → Nat → String) (serial : Serial) :
    List (String × String) → Except String Unit
  | [] => .ok ()
  | (prop, expected) :: rest =>
    match retryFixed 60 1 (getpropAttempt oracle serial prop expected) with
    | .ok _ => waitProps oracle serial rest
    | .error _ => .error ("timed out waiting for prop " ++ prop)

/-- `RealRuntime::wait_for_boot`. -/
def wait_for_boot (oracle : Serial → String → Nat → String) (serial : Serial) :
    Except String Unit :=
  waitProps oracle serial bootProps

/-! ### Definitions used only to state the claims -/

/-- Non-strict version of the ledger's key order. -/
def serial_le (a b : Serial) : Bool :=
  !(serial_lt b a)

/-- A well-formed serialized record: parsing it and re-serializing the
entry reproduces it exactly (so the serial contains no `:`, and a pid
field is in canonical integer form). -/
def wellFormedLine (line : String) : Bool :=
  match parseLine line with
  | none => false
  | some e => writeEntry e == line

/-- The entries of a list of parsable lines, in line order. -/
def parsedEntries (lines : List String) : List (Serial × Option Pid) :=
  lines.filterMap parseLine

/-- A well-formed ledger text: every line is a canonical record, the
serials are pairwise distinct, and the text is exactly its
newline-terminated lines (in particular it ends with a newline when
nonempty). -/
def WellFormedText (text : String) : Prop :=
  (∀ line ∈ rustLines text, wellFormedLine line = true) ∧
    ((parsedEntries (rustLines text)).map (fun e => e.1)).Nodup ∧
    text = String.join ((rustLines text).map (fun line => line ++ "\n"))

instance (text : String) : Decidable (WellFormedText text) := by
  unfold WellFormedText; infer_instance

/-- The count the reconciliation loop actually targets: the free-slot
count recorded in `actual_value` immediately before the claim attempt
that decided the pass (after `update`, and after stale-holder pruning
when the first attempt failed). -/
def reconTarget (rt : RuntimeModel) (pid : Pid) (entries1 : Ledger) : Nat :=
  if (acquire pid entries1).1.isSome then count_available entries1
  else count_available (release_all (prune_dropped rt entries1) entries1)

/-- A line that carries a pid field (something after a `:`) that does not
parse as an integer — the input on which `read` is claimed to fail. -/
def lineHasBadPid (line : String) : Bool :=
  match splitOnChar ':' line.data with
  | _ :: p :: _ => (parsePid ⟨p⟩).isNone
  | _ => false

/-- A line matching the documented grammar `serial` or `serial:pid` with
an integer pid (the serial containing no `:`). -/
def matchesPattern (line : String) : Bool :=
  match splitOnChar ':' line.data with
  | [_] => true
  | [_, p] => (parsePid ⟨p⟩).isSome
  | _ => false

/-- A boot oracle whose animation predicate reaches `"stopped"` only at
attempt 61 — one attempt past the spec's claimed 60-attempt budget. -/
def lateOracle : Serial → String → Nat → String := fun _ prop i =>
  if prop = "init.svc.bootanim" then (if 61 ≤ i then "stopped" else "running")
  else "1"

/-- A boot oracle that never reports the expected values. -/
def neverOracle : Serial → String → Nat → String := fun _ _ _ => "nope"

/-! ### Order lemmas for the key order -/

theorem str_ext {s t : String} (h : s.data = t.data) : s = t :=
  congrArg String.mk h

theorem char_eq_of_toNat_eq {a b : Char} (h : a.toNat = b.toNat) : a = b := by
  have h' := congrArg Char.ofNat h
  rwa [Char.ofNat_toNat, Char.ofNat_toNat] at h'

theorem lexLt_nil_right (as : List Char) : lexLt as [] = false := by
  cases as <;> rfl

theorem lexLt_irrefl (as : List Char) : lexLt as as = false := by
  induction as with
  | nil => rfl
  | cons a as ih => simp [lexLt, ih]

theorem lexLt_trans : ∀ {as bs cs : List Char},
    lexLt as bs = true → lexLt bs cs = true → lexLt as cs = true := by
  intro as
  induction as with
  | nil =>
    intro bs cs h1 h2
    cases bs with
    | nil => simp [lexLt] at h1
    | cons b bs =>
      cases cs with
      | nil => simp [lexLt_nil_right] at h2
      | cons c cs => rfl
  | cons a as ih =>
    intro bs cs h1 h2
    cases bs with
    | nil => simp [lexLt_nil_right] at h1
    | cons b bs =>
      cases cs with
      | nil => simp [lexLt_nil_right] at h2
      | cons c cs =>
        simp only [lexLt] at h1 h2 ⊢
        by_cases hab : a.toNat < b.toNat
        · by_cases hbc : b.toNat < c.toNat
          · simp [Nat.lt_trans hab hbc]
          · rw [if_neg hbc] at h2
            by_cases hcb : c.toNat < b.toNat
            · simp [hcb] at h2
            · have hbceq : b.toNat = c.toNat := Nat.le_antisymm
                (Nat.le_of_not_lt hcb) (Nat.le_of_not_lt hbc)
              have : a.toNat < c.toNat := hbceq ▸ hab
              simp [this]
        · rw [if_neg hab] at h1
          by_cases hba : b.toNat < a.toNat
          · simp [hba] at h1
          · rw [if_neg hba] at h1
            have habeq : a.toNat = b.toNat := Nat.le_antisymm
              (Nat.le_of_not_lt hba) (Nat.le_of_not_lt hab)
            by_cases hbc : b.toNat < c.toNat
            · have : a.toNat < c.toNat := habeq ▸ hbc
              simp [this]
            · rw [if_neg hbc] at h2
              by_cases hcb : c.toNat < b.toNat
              · simp [hcb] at h2
              · rw [if_neg hcb] at h2
                have hbceq : b.toNat = c.toNat := Nat.le_antisymm
                  (Nat.le_of_not_lt hcb) (Nat.le_of_not_lt hbc)
                have hac : ¬ a.toNat < c.toNat := by omega
                have hca : ¬ c.toNat < a.toNat := by omega
                simp [hac, hca, ih h1 h2]

theorem lexLt_eq_of_not : ∀ {as bs : List Char},
    lexLt as bs = false → lexLt bs as = false → as = bs := by
  intro as
  induction as with
  | nil =>
    intro bs h1 _
    cases bs with
    | nil => rfl
    | cons b bs => simp [lexLt] at h1
  | cons a as ih =>
    intro bs h1 h2
    cases bs with
    | nil => simp [lexLt] at h2
    | cons b bs =>
      simp only [lexLt] at h1 h2
      by_cases hab : a.toNat < b.toNat
      · simp [hab] at h1
      · rw [if_neg hab] at h1
        by_cases hba : b.toNat < a.toNat
        · simp [hba] at h2
        · rw [if_neg hba] at h1
          rw [if_neg hba, if_neg hab] at h2
          have habeq : a.toNat = b.toNat := Nat.le_antisymm
            (Nat.le_of_not_lt hba) (Nat.le_of_not_lt hab)
          rw [char_eq_of_toNat_eq habeq, ih h1 h2]

theorem serial_lt_irrefl (s : Serial) : serial_lt s s = false :=
  lexLt_irrefl s.data

theorem serial_lt_trans {a b c : Serial} (h1 : serial_lt a b = true)
    (h2 : serial_lt b c = true) : serial_lt a c = true :=
  lexLt_trans h1 h2

theorem serial_lt_asymm {a b : Serial} (h : serial_lt a b = true) :
    serial_lt b a = false := by
  cases hb : serial_lt b a with
  | false => rfl
  | true =>
    have := serial_lt_trans h hb
    rw [serial_lt_irrefl] at this
    exact absurd this (by simp)

theorem serial_eq_of_not_lt {a b : Serial} (h1 : serial_lt a b = false)
    (h2 : serial_lt b a = false) : a = b :=
  str_ext (lexLt_eq_of_not h1 h2)

theorem serial_lt_of_ne_of_not_lt {a b : Serial} (hne : a ≠ b)
    (h : serial_lt a b = false) : serial_lt b a = true := by
  cases hb : serial_lt b a with
  | true => rfl
  | false => exact absurd (serial_eq_of_not_lt h hb) hne

/-! ### Basic ledger lemmas -/

theorem insertEntry_cons_lt {s k : Serial} (h : serial_lt s k = true)
    (p v : Option Pid) (rest : Ledger) :
    insertEntry s p ((k, v) :: rest) = (s, p) :: (k, v) :: rest := by
  rw [insertEntry, if_pos h]

theorem insertEntry_cons_self {s : Serial} (p v : Option Pid) (rest : Ledger) :
    insertEntry s p ((s, v) :: rest) = (s, p) :: rest := by
  rw [insertEntry, if_neg (by simp [serial_lt_irrefl]), if_pos rfl]

theorem insertEntry_cons_gt {s k : Serial} (hlt : serial_lt s k = false)
    (hne : s ≠ k) (p v : Option Pid) (rest : Ledger) :
    insertEntry s p ((k, v) :: rest) = (k, v) :: insertEntry s p rest := by
  rw [insertEntry, if_neg (by simp [hlt]), if_neg hne]

theorem lookupEntry_cons_self (s : Serial) (v : Option Pid) (rest : Ledger) :
    lookupEntry ((s, v) :: rest) s = some v := by
  simp [lookupEntry, List.find?_cons]

theorem lookupEntry_cons_ne {k t : Serial} (h : k ≠ t) (v : Option Pid)
    (rest : Ledger) : lookupEntry ((k, v) :: rest) t = lookupEntry rest t := by
  have hkt : (k == t) = false := by simpa using h
  simp [lookupEntry, List.find?_cons, hkt]

theorem lookupEntry_insertEntry_self (l : Ledger) (s : Serial) (p : Option Pid) :
    lookupEntry (insertEntry s p l) s = some p := by
  induction l with
  | nil => simp [insertEntry, lookupEntry]
  | cons e rest ih =>
    obtain ⟨k, v⟩ := e
    cases hlt : serial_lt s k with
    | true => rw [insertEntry_cons_lt hlt, lookupEntry_cons_self]
    | false =>
      by_cases heq : s = k
      · subst heq
        rw [insertEntry_cons_self, lookupEntry_cons_self]
      · rw [insertEntry_cons_gt hlt heq,
          lookupEntry_cons_ne (fun h => heq h.symm), ih]

theorem lookupEntry_insertEntry_ne (l : Ledger) {s t : Serial}
    (hts : t ≠ s) (p : Option Pid) :
    lookupEntry (insertEntry s p l) t = lookupEntry l t := by
  induction l with
  | nil =>
    show lookupEntry [(s, p)] t = lookupEntry [] t
    rw [lookupEntry_cons_ne (fun h => hts h.symm)]
  | cons e rest ih =>
    obtain ⟨k, v⟩ := e
    cases hlt : serial_lt s k with
    | true =>
      rw [insertEntry_cons_lt hlt, lookupEntry_cons_ne (fun h => hts h.symm)]
    | false =>
      by_cases heq : s = k
      · subst heq
        rw [insertEntry_cons_self, lookupEntry_cons_ne (fun h => hts h.symm)]
        by_cases hkt : s = t
        · exact absurd hkt.symm hts
        · rw [lookupEntry_cons_ne hkt]
      · rw [insertEntry_cons_gt hlt heq]
        by_cases hkt : k = t
        · subst hkt
          rw [lookupEntry_cons_self, lookupEntry_cons_self]
        · rw [lookupEntry_cons_ne hkt, lookupEntry_cons_ne hkt, ih]

theorem lookupEntry_mem {l : Ledger} {s : Serial} {w : Option Pid}
    (h : lookupEntry l s = some w) : (s, w) ∈ l := by
  unfold lookupEntry at h
  cases hfind : l.find? (fun e => e.1 == s) with
  | none => rw [hfind] at h; simp at h
  | some e =>
    rw [hfind] at h
    have hmem := List.mem_of_find?_eq_some hfind
    have hkey := List.find?_some hfind
    obtain ⟨a, b⟩ := e
    have h1 : a = s := by simpa using hkey
    have h2 : b = w := by simpa using h
    rw [h1, h2] at hmem
    exact hmem

theorem containsKey_eq_isSome_lookupEntry (l : Ledger) (s : Serial) :
    containsKey l s = (lookupEntry l s).isSome := by
  induction l with
  | nil => rfl
  | cons e rest ih =>
    cases h : (e.1 == s) with
    | true => simp [containsKey, lookupEntry, List.find?_cons, h]
    | false => simpa [containsKey, lookupEntry, List.find?_cons, h] using ih

theorem containsKey_insertEntry (l : Ledger) (s t : Serial) (p : Option Pid) :
    containsKey (insertEntry s p l) t = ((t == s) || containsKey l t) := by
  by_cases hts : t = s
  · subst hts
    simp [containsKey_eq_isSome_lookupEntry, lookupEntry_insertEntry_self]
  · have : (t == s) = false := by simpa using hts
    simp [containsKey_eq_isSome_lookupEntry, lookupEntry_insertEntry_ne l hts, this]

theorem insertEntry_perm_not_contains {l : Ledger} {s : Serial}
    (h : containsKey l s = false) (p : Option Pid) :
    (insertEntry s p l).Perm ((s, p) :: l) := by
  induction l with
  | nil => exact List.Perm.refl _
  | cons e rest ih =>
    obtain ⟨k, v⟩ := e
    simp only [containsKey, List.any_cons, Bool.or_eq_false_iff] at h
    obtain ⟨hk, hrest⟩ := h
    cases hlt : serial_lt s k with
    | true => rw [insertEntry_cons_lt hlt]
    | false =>
      by_cases heq : s = k
      · exfalso
        subst heq
        simp at hk
      · rw [insertEntry_cons_gt hlt heq]
        exact List.Perm.trans ((ih hrest).cons (k, v))
          (List.Perm.swap (s, p) (k, v) rest)

theorem mem_insertEntry {l : Ledger} {e : Serial × Option Pid} {s : Serial}
    {p : Option Pid} (h : e ∈ insertEntry s p l) : e = (s, p) ∨ e ∈ l := by
  induction l with
  | nil => simpa [insertEntry] using h
  | cons f rest ih =>
    obtain ⟨k, v⟩ := f
    cases hlt : serial_lt s k with
    | true =>
      rw [insertEntry_cons_lt hlt] at h
      rcases List.mem_cons.mp h with h | h
      · exact Or.inl h
      · exact Or.inr h
    | false =>
      by_cases heq : s = k
      · subst heq
        rw [insertEntry_cons_self] at h
        rcases List.mem_cons.mp h with h | h
        · exact Or.inl h
        · exact Or.inr (List.mem_cons_of_mem _ h)
      · rw [insertEntry_cons_gt hlt heq] at h
        rcases List.mem_cons.mp h with h | h
        · exact Or.inr (by simp [h])
        · rcases ih h with h' | h'
          · exact Or.inl h'
          · exact Or.inr (List.mem_cons_of_mem _ h')

theorem sorted_insertEntry {l : Ledger} (h : SortedLedger l)
    (s : Serial) (p : Option Pid) : SortedLedger (insertEntry s p l) := by
  induction l with
  | nil => simp [insertEntry, SortedLedger]
  | cons f rest ih =>
    obtain ⟨k, v⟩ := f
    rw [SortedLedger, List.pairwise_cons] at h
    obtain ⟨hk, hrest⟩ := h
    cases hlt : serial_lt s k with
    | true =>
      rw [SortedLedger, insertEntry_cons_lt hlt]
      refine List.Pairwise.cons ?_ (List.Pairwise.cons hk hrest)
      intro e he
      rcases List.mem_cons.mp he with he | he
      · simpa [he] using hlt
      · exact serial_lt_trans hlt (hk e he)
    | false =>
      by_cases heq : s = k
      · subst heq
        rw [SortedLedger, insertEntry_cons_self]
        exact List.Pairwise.cons hk hrest
      · rw [SortedLedger, insertEntry_cons_gt hlt heq]
        refine List.Pairwise.cons ?_ (ih hrest)
        intro e he
        rcases mem_insertEntry he with he' | he'
        · rw [he']
          exact serial_lt_of_ne_of_not_lt heq hlt
        · exact hk e he'

theorem count_available_perm {l l' : Ledger} (h : l.Perm l') :
    count_available l = count_available l' :=
  (h.filter _).length_eq

theorem count_available_insert_absent {l : Ledger} {s : Serial}
    (h : containsKey l s = false) :
    count_available (insertEntry s none l) = count_available l + 1 := by
  rw [count_available_perm (insertEntry_perm_not_contains h none)]
  simp [count_available, List.filter_cons, Nat.add_comm]

theorem lookupEntry_of_mem_sorted {l : Ledger} (hs : SortedLedger l)
    {s : Serial} {w : Option Pid} (h : (s, w) ∈ l) :
    lookupEntry l s = some w := by
  induction l with
  | nil => simp at h
  | cons f rest ih =>
    obtain ⟨k, v⟩ := f
    rw [SortedLedger, List.pairwise_cons] at hs
    obtain ⟨hk, hrest⟩ := hs
    rcases List.mem_cons.mp h with h' | h'
    · have h1 : s = k ∧ w = v := by simpa [Prod.ext_iff] using h'
      obtain ⟨h1, h2⟩ := h1
      subst h1
      subst h2
      exact lookupEntry_cons_self s w rest
    · have hlt : serial_lt k s = true := hk _ h'
      have hks : k ≠ s := by
        intro hkk
        rw [hkk, serial_lt_irrefl] at hlt
        exact absurd hlt (by simp)
      rw [lookupEntry_cons_ne hks]
      exact ih hrest h'

/-! ### Lemmas about `find_available` and `acquire` -/

theorem find_available_none_iff (l : Ledger) :
    find_available l = none ↔ count_available l = 0 := by
  unfold find_available count_available
  rw [Option.map_eq_none', List.find?_eq_none, List.length_eq_zero,
    List.filter_eq_nil_iff]

theorem find_available_some {l : Ledger} {s : Serial}
    (h : find_available l = some s) : (s, none) ∈ l := by
  unfold find_available at h
  cases hfind : l.find? (fun e => e.2.isNone) with
  | none => rw [hfind] at h; simp at h
  | some e =>
    rw [hfind] at h
    have hmem := List.mem_of_find?_eq_some hfind
    have hfree := List.find?_some hfind
    obtain ⟨a, b⟩ := e
    have h1 : a = s := by simpa using h
    have h2 : b = none := by simpa using hfree
    rw [h1, h2] at hmem
    exact hmem

theorem count_available_ne_zero_of_mem {l : Ledger} {s : Serial}
    (h : (s, none) ∈ l) : count_available l ≠ 0 := by
  unfold count_available
  intro hlen
  rw [List.length_eq_zero, List.filter_eq_nil_iff] at hlen
  exact absurd (by simp : ((s, none) : Serial × Option Pid).2.isNone = true)
    (hlen _ h)

theorem find_available_min {l : Ledger} (hs : SortedLedger l) {s : Serial}
    (h : find_available l = some s) :
    ∀ e ∈ l, e.2 = none → serial_lt e.1 s = false := by
  induction l with
  | nil => simp
  | cons f rest ih =>
    obtain ⟨k, v⟩ := f
    rw [SortedLedger, List.pairwise_cons] at hs
    obtain ⟨hk, hrest⟩ := hs
    cases hv : v.isNone with
    | true =>
      have hks : k = s := by
        unfold find_available at h
        rw [List.find?_cons_of_pos _ (by simpa using hv)] at h
        simpa using h
      intro e he hnone
      rcases List.mem_cons.mp he with he' | he'
      · rw [he', ← hks]
        exact serial_lt_irrefl k
      · rw [← hks]
        exact serial_lt_asymm (hk e he')
    | false =>
      have hrec : find_available rest = some s := by
        unfold find_available at h ⊢
        rwa [List.find?_cons_of_neg _ (by simp [hv])] at h
      intro e he hnone
      rcases List.mem_cons.mp he with he' | he'
      · exfalso
        rw [he'] at hnone
        have hveq : v = none := hnone
        rw [hveq] at hv
        simp at hv
      · exact ih hrest hrec e he' hnone

theorem count_insert_free_to_held {l : Ledger} (hs : SortedLedger l)
    {s : Serial} (hmem : (s, none) ∈ l) (p : Pid) :
    count_available (insertEntry s (some p) l) + 1 = count_available l := by
  induction l with
  | nil => simp at hmem
  | cons f rest ih =>
    obtain ⟨k, v⟩ := f
    rw [SortedLedger, List.pairwise_cons] at hs
    obtain ⟨hk, hrest⟩ := hs
    rcases List.mem_cons.mp hmem with h' | h'
    · have h1 : s = k ∧ (none : Option Pid) = v := by simpa [Prod.ext_iff] using h'
      obtain ⟨h1, h2⟩ := h1
      subst h1
      rw [← h2, insertEntry_cons_self]
      simp [count_available, List.filter_cons]
    · have hlt : serial_lt k s = true := hk _ h'
      have hne : s ≠ k := by
        intro hkk
        rw [hkk, serial_lt_irrefl] at hlt
        exact absurd hlt (by simp)
      rw [insertEntry_cons_gt (serial_lt_asymm hlt) hne]
      have := ih hrest h'
      cases hv : v.isNone with
      | true => simpa [count_available, List.filter_cons, hv, Nat.add_assoc,
          Nat.add_comm 1] using this
      | false => simpa [count_available, List.filter_cons, hv] using this

theorem insertEntry_self_of_lookup {l : Ledger} (hs : SortedLedger l)
    {s : Serial} {v : Option Pid} (h : lookupEntry l s = some v) :
    insertEntry s v l = l := by
  induction l with
  | nil => simp [lookupEntry] at h
  | cons f rest ih =>
    obtain ⟨k, w⟩ := f
    rw [SortedLedger, List.pairwise_cons] at hs
    obtain ⟨hk, hrest⟩ := hs
    by_cases hks : k = s
    · subst hks
      rw [lookupEntry_cons_self] at h
      have : w = v := by simpa using h
      rw [← this, insertEntry_cons_self]
    · rw [lookupEntry_cons_ne hks] at h
      have hmem := lookupEntry_mem h
      have hlt : serial_lt k s = true := hk _ hmem
      have hne : s ≠ k := fun hss => hks hss.symm
      rw [insertEntry_cons_gt (serial_lt_asymm hlt) hne, ih hrest h]

/-! ### Claim C1 -/

/-- C1: for every ledger `L` (with the `BTreeMap` key-sorted invariant) and
pid `P`, `acquire P` returns `some s` only for `s` the first free slot of
`L` in lexicographic identifier order, marks `s` held by `P` so that
`count_available` decreases by exactly one, and returns `none` if and only
if `count_available L = 0` before the call. -/
theorem c1_acquire_first_free (L : Ledger) (P : Pid) (hL : SortedLedger L) :
    ((acquire P L).1 = none ↔ count_available L = 0) ∧
    (∀ s, (acquire P L).1 = some s →
      lookupEntry L s = some none ∧
      (∀ e ∈ L, e.2 = none → serial_le s e.1 = true) ∧
      lookupEntry (acquire P L).2 s = some (some P) ∧
      count_available (acquire P L).2 + 1 = count_available L) := by
  constructor
  · cases hfa : find_available L with
    | none =>
      have h1 : acquire P L = (none, L) := by rw [acquire, hfa]
      rw [h1]
      exact ⟨fun _ => (find_available_none_iff L).mp hfa, fun _ => rfl⟩
    | some t =>
      have h1 : acquire P L = (some t, insertEntry t (some P) L) := by
        rw [acquire, hfa]
      rw [h1]
      constructor
      · intro h
        simp at h
      · intro h
        exact absurd h (count_available_ne_zero_of_mem (find_available_some hfa))
  · intro s hsome
    cases hfa : find_available L with
    | none =>
      have h1 : acquire P L = (none, L) := by rw [acquire, hfa]
      rw [h1] at hsome
      simp at hsome
    | some t =>
      have h1 : acquire P L = (some t, insertEntry t (some P) L) := by
        rw [acquire, hfa]
      rw [h1] at hsome
      have hts : t = s := by simpa using hsome
      subst hts
      have hmem : (t, none) ∈ L := find_available_some hfa
      have hsnd : (acquire P L).2 = insertEntry t (some P) L := by rw [h1]
      refine ⟨lookupEntry_of_mem_sorted hL hmem, ?_, ?_, ?_⟩
      · intro e he hnone
        have := find_available_min hL hfa e he hnone
        simp [serial_le, this]
      · rw [hsnd]
        exact lookupEntry_insertEntry_self L t (some P)
      · rw [hsnd]
        exact count_insert_free_to_held hL hmem P

/-- C1 witness: the theorem applied to a concrete sorted ledger whose
first free slot is `"b"`. -/
theorem c1_witness :
    count_available (acquire 7 [("a", some 2), ("b", none), ("c", none)]).2 + 1 =
      count_available [("a", some 2), ("b", none), ("c", none)] :=
  ((c1_acquire_first_free [("a", some 2), ("b", none), ("c", none)] 7
    (by decide)).2 "b" (by decide)).2.2.2

/-! ### Claim C10 -/

/-- C10: `release s` always maps `s` to free; when `s` is absent from a
(sorted) ledger this adds a brand-new free slot, increasing
`count_available` by one, and `release` is a no-op exactly when `s` is
already present and free. -/
theorem c10_release_absent_inserts (L : Ledger) (s : Serial)
    (hL : SortedLedger L) :
    lookupEntry (release s L) s = some none ∧
    (containsKey L s = false →
      count_available (release s L) = count_available L + 1) ∧
    (release s L = L ↔ lookupEntry L s = some none) := by
  refine ⟨lookupEntry_insertEntry_self L s none,
    fun h => count_available_insert_absent h, ?_, ?_⟩
  · intro h
    rw [← h]
    exact lookupEntry_insertEntry_self L s none
  · intro h
    exact insertEntry_self_of_lookup hL h

/-- C10 witness: releasing a serial absent from a concrete one-slot ledger
adds a new free slot. -/
theorem c10_witness :
    count_available (release "b" [("a", some 1)]) =
      count_available [("a", some 1)] + 1 :=
  (c10_release_absent_inserts [("a", some 1)] "b" (by decide)).2.1 (by decide)

/-! ### Lemmas about `update` -/

theorem lookupEntry_none_of_not_contains {l : Ledger} {t : Serial}
    (h : containsKey l t = false) : lookupEntry l t = none := by
  rw [containsKey_eq_isSome_lookupEntry] at h
  exact Option.not_isSome_iff_eq_none.mp (by simp [h])

theorem containsKey_of_mem {l : Ledger} {e : Serial × Option Pid}
    (h : e ∈ l) : containsKey l e.1 = true := by
  unfold containsKey
  rw [List.any_eq_true]
  exact ⟨e, h, by simp⟩

theorem lookupEntry_filter_mem {l : Ledger} {serials : List Serial} {t : Serial}
    (ht : serials.contains t = true) :
    lookupEntry (l.filter (fun e => serials.contains e.1)) t = lookupEntry l t := by
  induction l with
  | nil => rfl
  | cons e rest ih =>
    obtain ⟨k, v⟩ := e
    by_cases hkt : k = t
    · subst hkt
      rw [List.filter_cons, if_pos (by simpa using ht), lookupEntry_cons_self,
        lookupEntry_cons_self]
    · cases hkeep : serials.contains k with
      | true =>
        rw [List.filter_cons, if_pos (by simpa using hkeep),
          lookupEntry_cons_ne hkt, lookupEntry_cons_ne hkt, ih]
      | false =>
        rw [List.filter_cons, if_neg (by rw [hkeep]; simp),
          lookupEntry_cons_ne hkt, ih]

theorem lookupEntry_filter_not_mem {l : Ledger} {serials : List Serial}
    {t : Serial} (ht : serials.contains t = false) :
    lookupEntry (l.filter (fun e => serials.contains e.1)) t = none := by
  unfold lookupEntry
  rw [Option.map_eq_none', List.find?_eq_none]
  intro e he hbeq
  have hkt : e.1 = t := by simpa using hbeq
  have := (List.mem_filter.mp he).2
  rw [hkt, ht] at this
  exact absurd this (by simp)

theorem lookupEntry_update_fold (serials : List Serial) (acc : Ledger)
    (t : Serial) :
    lookupEntry
      (serials.foldl
        (fun acc s => if containsKey acc s then acc else insertEntry s none acc)
        acc) t =
      match lookupEntry acc t with
      | some v => some v
      | none => if serials.contains t then some none else none := by
  induction serials generalizing acc with
  | nil =>
    cases hl : lookupEntry acc t <;> simp [hl]
  | cons s ss ih =>
    rw [List.foldl_cons, ih]
    by_cases hca : containsKey acc s = true
    · rw [if_pos hca]
      cases hl : lookupEntry acc t with
      | some v => simp [hl]
      | none =>
        have hst : ¬ t = s := by
          intro h
          rw [← h] at hca
          rw [containsKey_eq_isSome_lookupEntry, hl] at hca
          simp at hca
        simp [hl, List.contains_cons, hst]
    · rw [if_neg hca]
      by_cases hts : t = s
      · subst hts
        rw [lookupEntry_insertEntry_self,
          lookupEntry_none_of_not_contains (by simpa using hca)]
        simp [List.contains_cons]
      · rw [lookupEntry_insertEntry_ne acc hts]
        cases hl : lookupEntry acc t with
        | some v => simp [hl]
        | none => simp [hl, List.contains_cons, hts]

theorem lookupEntry_update (L : Ledger) (serials : List Serial) (t : Serial) :
    lookupEntry (update serials L) t =
      if serials.contains t then some ((lookupEntry L t).getD none) else none := by
  unfold update
  rw [lookupEntry_update_fold]
  cases ht : serials.contains t with
  | true =>
    rw [lookupEntry_filter_mem ht, if_pos rfl]
    cases lookupEntry L t <;> simp [ht]
  | false =>
    rw [lookupEntry_filter_not_mem ht]
    simp [ht]

theorem containsKey_update (L : Ledger) (serials : List Serial) (t : Serial) :
    containsKey (update serials L) t = serials.contains t := by
  rw [containsKey_eq_isSome_lookupEntry, lookupEntry_update]
  cases ht : serials.contains t <;> simp

theorem foldl_or_insert_id {serials : List Serial} {acc : Ledger}
    (h : ∀ s ∈ serials, containsKey acc s = true) :
    serials.foldl
      (fun acc s => if containsKey acc s then acc else insertEntry s none acc)
      acc = acc := by
  induction serials with
  | nil => rfl
  | cons s ss ih =>
    rw [List.foldl_cons, if_pos (h s (List.mem_cons_self s ss))]
    exact ih (fun x hx => h x (List.mem_cons_of_mem s hx))

theorem update_idem (L : Ledger) (serials : List Serial) :
    update serials (update serials L) = update serials L := by
  conv_lhs => rw [update]
  have hfilter : (update serials L).filter (fun e => serials.contains e.1) =
      update serials L := by
    rw [List.filter_eq_self]
    intro e he
    have := containsKey_of_mem he
    rwa [containsKey_update] at this
  rw [hfilter]
  exact foldl_or_insert_id (fun s hs => by
    rw [containsKey_update]
    exact List.elem_eq_true_of_mem hs)

/-! ### Claim C8 -/

/-- C8: `update serials` keeps exactly the slots whose identifier is in
`serials` (with their holder unchanged), inserts a free slot for every
listed identifier not already present, and is idempotent. -/
theorem c8_update_spec (L : Ledger) (serials : List Serial) :
    (∀ t, containsKey (update serials L) t = serials.contains t) ∧
    (∀ t, lookupEntry (update serials L) t =
      if serials.contains t then some ((lookupEntry L t).getD none) else none) ∧
    update serials (update serials L) = update serials L :=
  ⟨containsKey_update L serials, lookupEntry_update L serials,
    update_idem L serials⟩

/-! ### Lemmas about `readLines` and `write` -/

theorem readLines_sorted : ∀ (lines : List String) (acc : Ledger) (l : Ledger),
    SortedLedger acc → readLines lines acc = some l → SortedLedger l := by
  intro lines
  induction lines with
  | nil =>
    intro acc l hacc h
    obtain rfl : acc = l := by simpa [readLines] using h
    exact hacc
  | cons line rest ih =>
    intro acc l hacc h
    rw [readLines] at h
    cases hp : parseLine line with
    | none => rw [hp] at h; simp at h
    | some e =>
      rw [hp] at h
      exact ih _ l (sorted_insertEntry hacc e.1 e.2) h

theorem readLines_perm : ∀ (lines : List String) (acc : Ledger),
    (∀ line ∈ lines, (parseLine line).isSome) →
    ((parsedEntries lines).map (fun e => e.1)).Nodup →
    (∀ e ∈ parsedEntries lines, containsKey acc e.1 = false) →
    ∃ l, readLines lines acc = some l ∧ l.Perm (parsedEntries lines ++ acc) := by
  intro lines
  induction lines with
  | nil =>
    intro acc _ _ _
    exact ⟨acc, rfl, by simp [parsedEntries]⟩
  | cons line rest ih =>
    intro acc hparse hnodup hacc
    obtain ⟨e, he⟩ := Option.isSome_iff_exists.mp
      (hparse line (List.mem_cons_self line rest))
    have hentries : parsedEntries (line :: rest) = e :: parsedEntries rest := by
      simp [parsedEntries, List.filterMap_cons, he]
    have hacc_e : containsKey acc e.1 = false :=
      hacc e (by rw [hentries]; exact List.mem_cons_self _ _)
    have hperm_acc : (insertEntry e.1 e.2 acc).Perm (e :: acc) :=
      insertEntry_perm_not_contains hacc_e e.2
    rw [hentries] at hnodup
    rw [List.map_cons, List.nodup_cons] at hnodup
    obtain ⟨hhead, htail⟩ := hnodup
    have h3 : ∀ f ∈ parsedEntries rest,
        containsKey (insertEntry e.1 e.2 acc) f.1 = false := by
      intro f hf
      rw [containsKey_insertEntry]
      have hne : f.1 ≠ e.1 := by
        intro hfe
        exact hhead (hfe ▸ List.mem_map_of_mem (fun e => e.1) hf)
      have hfacc : containsKey acc f.1 = false :=
        hacc f (by rw [hentries]; exact List.mem_cons_of_mem _ hf)
      simp [hne, hfacc]
    obtain ⟨l, hl, hp⟩ := ih _
      (fun x hx => hparse x (List.mem_cons_of_mem _ hx)) htail h3
    refine ⟨l, ?_, ?_⟩
    · rw [readLines, he]
      exact hl
    · refine hp.trans ?_
      refine (List.Perm.append_left (parsedEntries rest) hperm_acc).trans ?_
      rw [hentries, List.cons_append]
      exact List.perm_middle

theorem map_writeEntry_of_wellFormed : ∀ (lines : List String),
    (∀ line ∈ lines, wellFormedLine line = true) →
    (parsedEntries lines).map writeEntry = lines := by
  intro lines
  induction lines with
  | nil => intro _; rfl
  | cons line rest ih =>
    intro h
    have hline := h line (List.mem_cons_self line rest)
    unfold wellFormedLine at hline
    cases hp : parseLine line with
    | none => rw [hp] at hline; simp at hline
    | some e =>
      rw [hp] at hline
      have hwe : writeEntry e = line := by simpa using hline
      have : parsedEntries (line :: rest) = e :: parsedEntries rest := by
        simp [parsedEntries, List.filterMap_cons, hp]
      rw [this, List.map_cons, hwe,
        ih (fun x hx => h x (List.mem_cons_of_mem _ hx))]

/-! ### Claim C7 -/

/-- C7: for every well-formed ledger text (canonical records, distinct
serials, newline-terminated), `read` succeeds and `write` of the result
is exactly the input records — reordered into identifier-sorted order —
each with its newline: `write (read text)` equals `text` up to identifier
ordering of the records. -/
theorem c7_write_read_roundtrip (text : String) (h : WellFormedText text) :
    (read text).isSome ∧
    SortedLedger ((read text).getD []) ∧
    ((((read text).getD []).map writeEntry).Perm (rustLines text)) ∧
    write ((read text).getD []) =
      String.join ((((read text).getD []).map writeEntry).map
        (fun line => line ++ "\n")) := by
  obtain ⟨hwf, hnodup, htext⟩ := h
  have hparse : ∀ line ∈ rustLines text, (parseLine line).isSome := by
    intro line hl
    have hline := hwf line hl
    unfold wellFormedLine at hline
    cases hp : parseLine line with
    | none => rw [hp] at hline; simp at hline
    | some e => simp
  obtain ⟨l, hread, hperm⟩ := readLines_perm (rustLines text) [] hparse hnodup
    (fun e _ => rfl)
  have hread' : read text = some l := hread
  rw [hread']
  refine ⟨rfl, ?_, ?_, ?_⟩
  · exact readLines_sorted (rustLines text) [] l (by simp [SortedLedger]) hread
  · have hl2 : l.Perm (parsedEntries (rustLines text)) := by simpa using hperm
    have hmap := hl2.map writeEntry
    rwa [map_writeEntry_of_wellFormed (rustLines text) hwf] at hmap
  · show write l = String.join ((l.map writeEntry).map (fun line => line ++ "\n"))
    rw [write, List.map_map]
    rfl

/-! ### Claim C9 -/

/-- C9 helper: a line whose pid field does not parse makes `parseLine`
fail, and a line matching the documented grammar makes it succeed. -/
theorem parseLine_cases (line : String) :
    (lineHasBadPid line = true → parseLine line = none) ∧
    (matchesPattern line = true → (parseLine line).isSome) := by
  rcases hsp : splitOnChar ':' line.data with _ | ⟨s, _ | ⟨p, rest⟩⟩
  · constructor
    · intro h
      rw [parseLine, hsp]
    · intro h
      rw [matchesPattern, hsp] at h
      simp at h
  · constructor
    · intro h
      rw [lineHasBadPid, hsp] at h
      simp at h
    · intro h
      rw [parseLine, hsp]
      simp
  · constructor
    · intro h
      rw [lineHasBadPid, hsp] at h
      rw [Option.isNone_iff_eq_none] at h
      rw [parseLine, hsp]
      simp [h]
    · intro h
      rw [matchesPattern, hsp] at h
      rw [parseLine, hsp]
      cases rest with
      | cons r rs => simp at h
      | nil =>
        obtain ⟨pid, hpid⟩ := Option.isSome_iff_exists.mp h
        simp [hpid]

theorem readLines_eq_none : ∀ (lines : List String) (acc : Ledger),
    (∃ line ∈ lines, parseLine line = none) → readLines lines acc = none := by
  intro lines
  induction lines with
  | nil => intro acc h; simp at h
  | cons line rest ih =>
    intro acc h
    rw [readLines]
    cases hp : parseLine line with
    | none => rfl
    | some e =>
      obtain ⟨bad, hmem, hbad⟩ := h
      rcases List.mem_cons.mp hmem with rfl | hmem'
      · rw [hp] at hbad; simp at hbad
      · exact ih _ ⟨bad, hmem', hbad⟩

theorem readLines_isSome : ∀ (lines : List String) (acc : Ledger),
    (∀ line ∈ lines, (parseLine line).isSome) → (readLines lines acc).isSome := by
  intro lines
  induction lines with
  | nil => intro acc _; simp [readLines]
  | cons line rest ih =>
    intro acc h
    rw [readLines]
    cases hp : parseLine line with
    | none =>
      have := h line (List.mem_cons_self line rest)
      rw [hp] at this
      simp at this
    | some e => exact ih _ (fun x hx => h x (List.mem_cons_of_mem _ hx))

/-- C9: `read` fails (the fatal `expect("invalid pid")` panic, modelled as
`none`) whenever some line carries a pid field that is not a valid
integer, and succeeds on every input all of whose lines match `serial` or
`serial:pid` with an integer pid. -/
theorem c9_read_parse_errors (text : String) :
    ((∃ line ∈ rustLines text, lineHasBadPid line = true) → read text = none) ∧
    ((∀ line ∈ rustLines text, matchesPattern line = true) → (read text).isSome) := by
  constructor
  · intro ⟨line, hmem, hbad⟩
    exact readLines_eq_none (rustLines text) []
      ⟨line, hmem, (parseLine_cases line).1 hbad⟩
  · intro h
    exact readLines_isSome (rustLines text) []
      (fun line hl => (parseLine_cases line).2 (h line hl))

/-- C9 witness: a concrete text whose second line has a non-integer pid
field is rejected by `read`. -/
theorem c9_witness : read "a\nb:xx\n" = none :=
  (c9_read_parse_errors "a\nb:xx\n").1 ⟨"b:xx", by decide, by decide⟩

/-! ### Lemmas about one allocator pass -/

theorem foldl_sub_length (l : List Nat) (v : Nat) :
    l.foldl (fun x _ => x - 1) v = v - l.length := by
  induction l generalizing v with
  | nil => rfl
  | cons a l ih => rw [List.foldl_cons, ih, List.length_cons]; omega

theorem foldl_add_length (l : List Nat) (v : Nat) :
    l.foldl (fun x _ => x + 1) v = v + l.length := by
  induction l generalizing v with
  | nil => rfl
  | cons a l ih => rw [List.foldl_cons, ih, List.length_cons]; omega

theorem adjustSem_fst (value actual : Nat) : (adjustSem value actual).1 = actual := by
  unfold adjustSem
  by_cases h1 : actual < value
  · rw [if_pos h1]
    show (List.range (value - actual)).foldl (fun v _ => v - 1) value = actual
    rw [foldl_sub_length, List.length_range]
    omega
  · rw [if_neg h1]
    by_cases h2 : value < actual
    · rw [if_pos h2]
      show (List.range (actual - value)).foldl (fun v _ => v + 1) value = actual
      rw [foldl_add_length, List.length_range]
      omega
    · rw [if_neg h2]
      show value = actual
      omega

theorem adjustSem_events_mem {value actual : Nat} {ev : Event}
    (h : ev ∈ (adjustSem value actual).2) :
    ev = Event.semDecrement ∨ ev = Event.semIncrement := by
  unfold adjustSem at h
  by_cases h1 : actual < value
  · rw [if_pos h1] at h
    exact Or.inl (List.eq_of_mem_replicate h)
  · rw [if_neg h1] at h
    by_cases h2 : value < actual
    · rw [if_pos h2] at h
      exact Or.inr (List.eq_of_mem_replicate h)
    · rw [if_neg h2] at h
      simp at h

theorem acquire_none_pair {pid : Pid} {l e2 : Ledger}
    (h : acquire pid l = (none, e2)) : e2 = l := by
  rw [acquire] at h
  cases hfa : find_available l with
  | none =>
    rw [hfa] at h
    exact (Prod.mk.injEq .. ▸ h).2.symm
  | some s =>
    rw [hfa] at h
    exact absurd (Prod.mk.injEq .. ▸ h).1 (by simp)

theorem passCore_actual (rt : RuntimeModel) (pid : Pid) (l : Ledger) :
    (passCore rt pid l).2.2.1 = reconTarget rt pid l := by
  rw [passCore]
  cases hacq : acquire pid l with
  | mk s0 e2 =>
    cases s0 with
    | some s =>
      rw [reconTarget, if_pos (by rw [hacq]; rfl)]
    | none =>
      have he2 : e2 = l := acquire_none_pair hacq
      subst he2
      rw [reconTarget, if_neg (by rw [hacq]; simp)]

theorem passCore_live_events (rt : RuntimeModel) (pid : Pid) (l : Ledger) :
    ∀ ev ∈ (passCore rt pid l).2.2.2, ∃ q, ev = Event.livenessCheck q := by
  rw [passCore]
  cases hacq : acquire pid l with
  | mk s0 e2 =>
    cases s0 with
    | some s => simp
    | none =>
      cases hacq2 : acquire pid (release_all (prune_dropped rt e2) e2) with
      | mk s1 e4 =>
        intro ev hev
        simp only [List.mem_map] at hev
        obtain ⟨f, _, hf⟩ := hev
        exact ⟨f.2, hf.symm⟩

theorem finishPass_claimed (serial : Option Serial) (entriesF : Ledger)
    (actual : Nat) (live : List Event) (text : String) (sem : Nat) :
    (finishPass serial entriesF actual live text sem).claimed = serial := rfl

theorem finishPass_semAfterReconcile (serial : Option Serial) (entriesF : Ledger)
    (actual : Nat) (live : List Event) (text : String) (sem : Nat) :
    (finishPass serial entriesF actual live text sem).semAfterReconcile = actual :=
  adjustSem_fst sem actual

theorem finishPass_fileText (serial : Option Serial) (entriesF : Ledger)
    (actual : Nat) (live : List Event) (text : String) (sem : Nat) :
    (finishPass serial entriesF actual live text sem).fileText =
      if serial.isSome then write entriesF else text := rfl

theorem finishPass_events (serial : Option Serial) (entriesF : Ledger)
    (actual : Nat) (live : List Event) (text : String) (sem : Nat) :
    (finishPass serial entriesF actual live text sem).events =
      Event.lockAcquire ::
        (live ++ (adjustSem sem actual).2 ++
          (if serial.isSome then [Event.persist (write entriesF)] else []) ++
          [Event.lockRelease, Event.semBlockingAcquire]) := rfl

theorem pass_anatomy {rt : RuntimeModel} {pid : Pid} {text : String}
    {semValue : Nat} {p : PassResult}
    (h : try_acquire_resource rt pid text semValue = some p) :
    ∃ entries0, read text = some entries0 ∧
      p = finishPass (passCore rt pid (update rt.devices entries0)).1
            (passCore rt pid (update rt.devices entries0)).2.1
            (passCore rt pid (update rt.devices entries0)).2.2.1
            (passCore rt pid (update rt.devices entries0)).2.2.2 text semValue := by
  rw [try_acquire_resource] at h
  cases hread : read text with
  | none => rw [hread] at h; exact absurd h (by simp)
  | some e0 =>
    rw [hread] at h
    refine ⟨e0, rfl, ?_⟩
    have h' : some (finishPass (passCore rt pid (update rt.devices e0)).1
        (passCore rt pid (update rt.devices e0)).2.1
        (passCore rt pid (update rt.devices e0)).2.2.1
        (passCore rt pid (update rt.devices e0)).2.2.2 text semValue) = some p := h
    exact (Option.some.inj h').symm

theorem dropLast_append_two {α : Type} (l : List α) (a b : α) :
    (l ++ [a, b]).dropLast.dropLast = l := by
  have h : l ++ [a, b] = (l ++ [a]) ++ [b] := by simp
  rw [h, List.dropLast_concat, List.dropLast_concat]

/-! ### Claim C2 -/

/-- C2 counterexample: a pass that claims the single free device
reconciles the semaphore to 1 (the free count recorded before the claim),
while the free count of the ledger after the claim attempt is 0 — so the
semaphore is not reconciled to the count computed after steps 2-4. -/
theorem c2_counterexample :
    ((try_acquire_resource ⟨["d1"], fun _ => false⟩ 1 "" 0).map
      (fun p => (p.semAfterReconcile, count_available p.entries))) = some (1, 0) ∧
    (1 : Nat) ≠ 0 :=
  ⟨by decide, by decide⟩

/-- C2 (amended): in every successful pass the semaphore is reconciled —
decremented down, incremented up, or left unchanged — to the free-slot
count recorded in `actual_value` immediately *before* the claim attempt
that decided the pass (after the device update, and after stale-holder
pruning when the first attempt failed), not to the count after the claim. -/
theorem c2_sem_reconciled_to_preclaim_count (rt : RuntimeModel) (pid : Pid)
    (text : String) (semValue : Nat) (p : PassResult) (entries0 : Ledger)
    (h : try_acquire_resource rt pid text semValue = some p)
    (hread : read text = some entries0) :
    p.semAfterReconcile = reconTarget rt pid (update rt.devices entries0) := by
  obtain ⟨e0, hread', hp⟩ := pass_anatomy h
  have he : e0 = entries0 := by
    rw [hread'] at hread
    exact Option.some.inj hread
  subst he
  rw [hp, finishPass_semAfterReconcile]
  exact passCore_actual rt pid (update rt.devices e0)

/-- C2 witness: the amended theorem applied to the concrete
counterexample pass. -/
theorem c2_witness :
    (PassResult.mk (some "d1") [("d1", some 1)] "d1:1\n" 1 0
      [Event.lockAcquire, Event.semIncrement, Event.persist "d1:1\n",
        Event.lockRelease, Event.semBlockingAcquire]).semAfterReconcile =
      reconTarget ⟨["d1"], fun _ => false⟩ 1 (update ["d1"] []) :=
  c2_sem_reconciled_to_preclaim_count ⟨["d1"], fun _ => false⟩ 1 "" 0 _ []
    (by decide) (by decide)

/-! ### Claim C3 -/

/-- C3 counterexample: a pass in which no serial was claimed still ends
with the blocking `sem.access()` — the blocking semaphore wait is not
restricted to passes that claimed a serial. -/
theorem c3_counterexample :
    ((try_acquire_resource ⟨[], fun _ => true⟩ 1 "" 0).map
        (fun p => (p.claimed, p.events))) =
      some (none, [Event.lockAcquire, Event.lockRelease, Event.semBlockingAcquire]) ∧
    Event.semBlockingAcquire ∈
      [Event.lockAcquire, Event.lockRelease, Event.semBlockingAcquire] :=
  ⟨by decide, by decide⟩

/-- C3 (amended): when no serial was claimed the pass releases the file
guard without persisting the ledger (the file text is unchanged and no
persist event occurs), but it still blocks on the semaphore to acquire one
permit — which it releases again on returning — before the protocol
retries from step 1. -/
theorem c3_no_claim_no_persist_still_blocks (rt : RuntimeModel) (pid : Pid)
    (text : String) (semValue : Nat) (p : PassResult)
    (h : try_acquire_resource rt pid text semValue = some p)
    (hnone : p.claimed = none) :
    p.fileText = text ∧ (∀ t, Event.persist t ∉ p.events) ∧
      Event.semBlockingAcquire ∈ p.events := by
  obtain ⟨e0, hread, hp⟩ := pass_anatomy h
  rw [hp, finishPass_claimed] at hnone
  refine ⟨?_, ?_, ?_⟩
  · rw [hp, finishPass_fileText, hnone]
    rfl
  · intro t ht
    rw [hp, finishPass_events, hnone] at ht
    simp only [Option.isSome_none, Bool.false_eq_true, if_false,
      List.append_nil, List.mem_cons, List.mem_append] at ht
    rcases ht with ht | (ht | ht) | ht
    · exact absurd ht (by simp)
    · obtain ⟨q, hq⟩ := passCore_live_events rt pid (update rt.devices e0) _ ht
      exact absurd hq (by simp)
    · rcases adjustSem_events_mem ht with ht' | ht' <;> exact absurd ht' (by simp)
    · simp at ht
  · rw [hp, finishPass_events]
    simp

/-- C3 witness: the amended theorem applied to the concrete no-device
pass. -/
theorem c3_witness :
    Event.semBlockingAcquire ∈
      (PassResult.mk none [] "" 0 0
        [Event.lockAcquire, Event.lockRelease, Event.semBlockingAcquire]).events :=
  (c3_no_claim_no_persist_still_blocks ⟨[], fun _ => true⟩ 1 "" 0 _
    (by decide) (by decide)).2.2

/-! ### Claim C4 -/

/-- C4: in every successful pass the exclusive file guard is released
strictly before the blocking semaphore acquisition starts: the trace ends
with the guard release immediately followed by the blocking acquire, and
neither event occurs anywhere earlier in the trace. -/
theorem c4_guard_released_before_block (rt : RuntimeModel) (pid : Pid)
    (text : String) (semValue : Nat) (p : PassResult)
    (h : try_acquire_resource rt pid text semValue = some p) :
    p.events = p.events.dropLast.dropLast ++
        [Event.lockRelease, Event.semBlockingAcquire] ∧
    Event.lockRelease ∉ p.events.dropLast.dropLast ∧
    Event.semBlockingAcquire ∉ p.events.dropLast.dropLast := by
  obtain ⟨e0, hread, hp⟩ := pass_anatomy h
  set pc := passCore rt pid (update rt.devices e0) with hpc
  have hev : p.events = (Event.lockAcquire ::
      (pc.2.2.2 ++ (adjustSem semValue pc.2.2.1).2 ++
        (if pc.1.isSome then [Event.persist (write pc.2.1)] else []))) ++
      [Event.lockRelease, Event.semBlockingAcquire] := by
    rw [hp, finishPass_events]
    simp [List.append_assoc]
  have hdrop : p.events.dropLast.dropLast = Event.lockAcquire ::
      (pc.2.2.2 ++ (adjustSem semValue pc.2.2.1).2 ++
        (if pc.1.isSome then [Event.persist (write pc.2.1)] else [])) := by
    rw [hev, dropLast_append_two]
  refine ⟨by rw [hdrop, ← hev], ?_, ?_⟩
  · rw [hdrop]
    intro hmem
    simp only [List.mem_cons, List.mem_append] at hmem
    rcases hmem with hmem | (hmem | hmem) | hmem
    · exact absurd hmem (by simp)
    · obtain ⟨q, hq⟩ := passCore_live_events rt pid (update rt.devices e0) _ hmem
      exact absurd hq (by simp)
    · rcases adjustSem_events_mem hmem with h' | h' <;> exact absurd h' (by simp)
    · cases hsome : pc.1.isSome <;> rw [hsome] at hmem <;> simp at hmem
  · rw [hdrop]
    intro hmem
    simp only [List.mem_cons, List.mem_append] at hmem
    rcases hmem with hmem | (hmem | hmem) | hmem
    · exact absurd hmem (by simp)
    · obtain ⟨q, hq⟩ := passCore_live_events rt pid (update rt.devices e0) _ hmem
      exact absurd hq (by simp)
    · rcases adjustSem_events_mem hmem with h' | h' <;> exact absurd h' (by simp)
    · cases hsome : pc.1.isSome <;> rw [hsome] at hmem <;> simp at hmem

/-- C4 witness: the theorem applied to a concrete single-device pass. -/
theorem c4_witness :
    (PassResult.mk (some "d1") [("d1", some 1)] "d1:1\n" 1 0
        [Event.lockAcquire, Event.semIncrement, Event.persist "d1:1\n",
          Event.lockRelease, Event.semBlockingAcquire]).events =
      (PassResult.mk (some "d1") [("d1", some 1)] "d1:1\n" 1 0
        [Event.lockAcquire, Event.semIncrement, Event.persist "d1:1\n",
          Event.lockRelease, Event.semBlockingAcquire]).events.dropLast.dropLast ++
        [Event.lockRelease, Event.semBlockingAcquire] :=
  (c4_guard_released_before_block ⟨["d1"], fun _ => false⟩ 1 "" 0 _ (by decide)).1

/-! ### Claim C5 -/

/-- C5 (Scenario B): starting from ledger `d1:999` with pid 999 not alive
and live devices `[d1]`, one pass for pid 42 asks the liveness oracle
about the recorded holder 999, releases the stale slot, reclaims it, and
leaves the persisted ledger equal to `d1:42`. -/
theorem c5_stale_holder_pruned :
    ((try_acquire_resource ⟨["d1"], fun _ => false⟩ 42 "d1:999\n" 0).map
      (fun p => (p.claimed, p.entries, p.fileText, p.events))) =
      some (some "d1", [("d1", some 42)], "d1:42\n",
        [Event.lockAcquire, Event.livenessCheck 999, Event.semIncrement,
          Event.persist "d1:42\n", Event.lockRelease, Event.semBlockingAcquire]) := by
  decide

/-! ### Lemmas about fixed-delay retry polling -/

theorem retryFixed_ok_iff : ∀ (d t : Nat) (op : Nat → Except String Unit),
    retryFixed d t op = .ok () ↔ ∃ i, t ≤ i ∧ i ≤ t + d ∧ op i = .ok () := by
  intro d
  induction d with
  | zero =>
    intro t op
    rw [retryFixed]
    cases hop : op t with
    | ok v =>
      obtain ⟨⟩ := v
      exact ⟨fun _ => ⟨t, Nat.le_refl t, by omega, hop⟩, fun _ => rfl⟩
    | error e =>
      constructor
      · intro h
        exact absurd h (by simp)
      · rintro ⟨i, h1, h2, hop2⟩
        have hit : i = t := by omega
        rw [hit, hop] at hop2
        exact absurd hop2 (by simp)
  | succ n ih =>
    intro t op
    rw [retryFixed]
    cases hop : op t with
    | ok v =>
      obtain ⟨⟩ := v
      exact ⟨fun _ => ⟨t, Nat.le_refl t, by omega, hop⟩, fun _ => rfl⟩
    | error e =>
      rw [ih (t + 1) op]
      constructor
      · rintro ⟨i, h1, h2, hop2⟩
        exact ⟨i, by omega, by omega, hop2⟩
      · rintro ⟨i, h1, h2, hop2⟩
        have hne : i ≠ t := by
          intro hit
          rw [hit, hop] at hop2
          exact absurd hop2 (by simp)
        exact ⟨i, by omega, by omega, hop2⟩

theorem getpropAttempt_ok_iff (oracle : Serial → String → Nat → String)
    (serial : Serial) (prop expected : String) (i : Nat) :
    getpropAttempt oracle serial prop expected i = .ok () ↔
      oracle serial prop i = expected := by
  by_cases h : oracle serial prop i = expected
  · simp [getpropAttempt, h]
  · simp [getpropAttempt, h]

theorem retry_prop_iff (oracle : Serial → String → Nat → String)
    (serial : Serial) (prop expected : String) :
    retryFixed 60 1 (getpropAttempt oracle serial prop expected) = .ok () ↔
      ∃ i, 1 ≤ i ∧ i ≤ 61 ∧ oracle serial prop i = expected := by
  rw [retryFixed_ok_iff]
  constructor
  · rintro ⟨i, h1, h2, h3⟩
    exact ⟨i, h1, by omega,
      (getpropAttempt_ok_iff oracle serial prop expected i).mp h3⟩
  · rintro ⟨i, h1, h2, h3⟩
    exact ⟨i, h1, by omega,
      (getpropAttempt_ok_iff oracle serial prop expected i).mpr h3⟩

/-! ### Claim C6 -/

/-- C6 counterexample: an oracle whose animation predicate is wrong on
every one of the first 60 attempts and right on the 61st makes
`wait_for_boot` succeed — the retry budget is one initial attempt plus 60
retries, so "no attempt within the 60-attempt budget matches" does not
imply a timeout failure. -/
theorem c6_counterexample :
    wait_for_boot lateOracle "s" = .ok () ∧
    ((List.range 60).all (fun k =>
      !(lateOracle "s" "init.svc.bootanim" (k + 1) == "stopped"))) = true :=
  ⟨rfl, rfl⟩

/-- C6 (amended): for each boot predicate, checked in fixed order,
`wait_for_boot` polls the oracle at most 61 times (one initial attempt
plus 60 fixed-delay retries), succeeds as soon as an observed value
equals the expected value, and fails with a timeout error naming the
first predicate for which no attempt among the 61 matches. -/
theorem c6_wait_for_boot_attempts (oracle : Serial → String → Nat → String)
    (serial : Serial) :
    (wait_for_boot oracle serial = .ok () ↔
      ((∃ i, 1 ≤ i ∧ i ≤ 61 ∧ oracle serial "init.svc.bootanim" i = "stopped") ∧
        (∃ j, 1 ≤ j ∧ j ≤ 61 ∧ oracle serial "sys.boot_completed" j = "1"))) ∧
    ((∀ i, 1 ≤ i → i ≤ 61 → oracle serial "init.svc.bootanim" i ≠ "stopped") →
      wait_for_boot oracle serial =
        .error "timed out waiting for prop init.svc.bootanim") ∧
    ((∃ i, 1 ≤ i ∧ i ≤ 61 ∧ oracle serial "init.svc.bootanim" i = "stopped") →
      (∀ j, 1 ≤ j → j ≤ 61 → oracle serial "sys.boot_completed" j ≠ "1") →
      wait_for_boot oracle serial =
        .error "timed out waiting for prop sys.boot_completed") := by
  cases hr1 : retryFixed 60 1
      (getpropAttempt oracle serial "init.svc.bootanim" "stopped") with
  | ok v =>
    obtain ⟨⟩ := v
    have hp1 : ∃ i, 1 ≤ i ∧ i ≤ 61 ∧ oracle serial "init.svc.bootanim" i = "stopped" :=
      (retry_prop_iff oracle serial "init.svc.bootanim" "stopped").mp hr1
    cases hr2 : retryFixed 60 1
        (getpropAttempt oracle serial "sys.boot_completed" "1") with
    | ok v2 =>
      obtain ⟨⟩ := v2
      have hp2 : ∃ j, 1 ≤ j ∧ j ≤ 61 ∧ oracle serial "sys.boot_completed" j = "1" :=
        (retry_prop_iff oracle serial "sys.boot_completed" "1").mp hr2
      have hwb : wait_for_boot oracle serial = .ok () := by
        rw [wait_for_boot, bootProps, waitProps, hr1, waitProps, hr2, waitProps]
      refine ⟨⟨fun _ => ⟨hp1, hp2⟩, fun _ => hwb⟩, ?_, ?_⟩
      · intro hno
        obtain ⟨i, h1, h2, h3⟩ := hp1
        exact absurd h3 (hno i h1 h2)
      · intro _ hno
        obtain ⟨j, h1, h2, h3⟩ := hp2
        exact absurd h3 (hno j h1 h2)
    | error e2 =>
      have hwb : wait_for_boot oracle serial =
          .error "timed out waiting for prop sys.boot_completed" := by
        rw [wait_for_boot, bootProps, waitProps, hr1, waitProps, hr2]
        rfl
      refine ⟨?_, ?_, fun _ _ => hwb⟩
      · constructor
        · intro h
          rw [hwb] at h
          exact absurd h (by simp)
        · rintro ⟨_, hp2⟩
          have := (retry_prop_iff oracle serial "sys.boot_completed" "1").mpr hp2
          rw [hr2] at this
          exact absurd this (by simp)
      · intro hno
        obtain ⟨i, h1, h2, h3⟩ := hp1
        exact absurd h3 (hno i h1 h2)
  | error e =>
    have hnp1 : ¬ ∃ i, 1 ≤ i ∧ i ≤ 61 ∧
        oracle serial "init.svc.bootanim" i = "stopped" := by
      intro hp1
      have := (retry_prop_iff oracle serial "init.svc.bootanim" "stopped").mpr hp1
      rw [hr1] at this
      exact absurd this (by simp)
    have hwb : wait_for_boot oracle serial =
        .error "timed out waiting for prop init.svc.bootanim" := by
      rw [wait_for_boot, bootProps, waitProps, hr1]
      rfl
    refine ⟨?_, fun _ => hwb, ?_⟩
    · constructor
      · intro h
        rw [hwb] at h
        exact absurd h (by simp)
      · rintro ⟨hp1, _⟩
        exact absurd hp1 hnp1
    · intro hp1 _
      exact absurd hp1 hnp1

/-- C6 witness: the amended theorem applied to an oracle that never
reports the expected values; the poll times out naming the first
predicate. -/
theorem c6_witness :
    wait_for_boot neverOracle "s" =
      .error "timed out waiting for prop init.svc.bootanim" :=
  (c6_wait_for_boot_attempts neverOracle "s").2.1
    (fun i h1 h2 => by simp only [neverOracle]; decide)

/-- C7 witness: the theorem applied to a concrete well-formed two-record
text whose records are out of identifier order. -/
theorem c7_witness :
    (read "b\na:5\n").isSome ∧
    SortedLedger ((read "b\na:5\n").getD []) ∧
    ((((read "b\na:5\n").getD []).map writeEntry).Perm (rustLines "b\na:5\n")) ∧
    write ((read "b\na:5\n").getD []) =
      String.join ((((read "b\na:5\n").getD []).map writeEntry).map
        (fun line => line ++ "\n")) :=
  c7_write_read_roundtrip "b\na:5\n" (by decide)

end Adp
